import Mathlib

/-!
# Verification of the spatial batch-normalization gradient operator

Shallow embedding of `SpatialBNGradientOp<CPUContext>::RunOnDevice` from
`caffe2/operators/spatial_batch_norm_gradient_op.cc`.

Modelling decisions:
* 32-bit floats are embedded as exact rationals (`ℚ`); the spec's formulas are
  exact equations, and the source's accumulation order is preserved in the
  definitions so that the summation structure can be audited.
* Tensors are flat data buffers (`List ℚ`) together with a shape (`List ℕ`),
  mirroring caffe2 tensors; Eigen column-major maps are translated into
  explicit flat-index arithmetic.
* `DCHECK_EQ` failures and `CAFFE_THROW` are embedded as an `Except` error
  carrying the buffer state at the moment of failure, so that statements about
  "outputs untouched on failure" are expressible.
-/

namespace SpatialBN

/-- caffe2 `StorageOrder`: `UNKNOWN = 0, NHWC = 1, NCHW = 2`. -/
inductive StorageOrder where
  | UNKNOWN : StorageOrder
  | NHWC : StorageOrder
  | NCHW : StorageOrder
deriving DecidableEq, Repr

/-- A caffe2 tensor: a shape together with a flat float buffer. -/
structure Tensor where
  dims : List ℕ
  data : List ℚ
deriving DecidableEq, Repr

/-- Read the flat buffer at index `i` (`data<float>()[i]`; reads past the end
of the buffer are undefined behaviour in the source and modelled as `0`). -/
def tGet (t : Tensor) (i : ℕ) : ℚ := t.data.getD i 0

/-- `Tensor::dim32(i)`. -/
def dim32 (t : Tensor) (i : ℕ) : ℕ := t.dims.getD i 0

/-- `Tensor::ndim()`. -/
def ndim (t : Tensor) : ℕ := t.dims.length

/-- Failure conditions of the operator (spec §7): `ShapeMismatch` for the
`DCHECK_EQ` shape validations, `UnsupportedLayout` for the
`CAFFE_THROW("Unknown storage order")` default of the layout switch. -/
inductive BNError where
  | ShapeMismatch : BNError
  | UnsupportedLayout : BNError
deriving DecidableEq, Repr

/-- The complete buffer state of one invocation: the five read-only inputs
(`X`, `dY`, `scale`, `savedMean`, `savedInvVar`), the operator's storage-order
argument, and the three caller-owned output buffers (`dX`, `dScale`, `dBias`). -/
structure BNState where
  X : Tensor
  dY : Tensor
  scale : Tensor
  savedMean : Tensor
  savedInvVar : Tensor
  order : StorageOrder
  dX : Tensor
  dScale : Tensor
  dBias : Tensor
deriving DecidableEq, Repr

/-! ## NCHW (channel-major) kernel

The source maps the buffers as Eigen column-major arrays of shape
`(H*W, N*C)`, so entry `(i, nc)` of a map is flat element `nc*(H*W) + i`. -/

/-- `dY_arr.col(nc).sum()`. -/
def colSumDY (HW : ℕ) (dy : ℕ → ℚ) (nc : ℕ) : ℚ :=
  ∑ i ∈ Finset.range HW, dy (nc * HW + i)

/-- `((X_arr.col(nc) - mean_arr(c)) * inv_var_arr(c) * dY_arr.col(nc)).sum()`. -/
def colSumScale (HW : ℕ) (x dy : ℕ → ℚ) (meanc invc : ℚ) (nc : ℕ) : ℚ :=
  ∑ i ∈ Finset.range HW, (x (nc * HW + i) - meanc) * invc * dy (nc * HW + i)

/-- The NCHW reduction loop: starting from the zeroed accumulators
(`dBias_arr.setZero(); dScale_arr.setZero()`), for each block `nc` with
`c = nc % C` accumulate `dBias_arr(c) += dY_arr.col(nc).sum()` and
`dScale_arr(c) += ((X_arr.col(nc) - mean_arr(c)) * inv_var_arr(c) *
dY_arr.col(nc)).sum()`. -/
def nchwReduce (C HW NC : ℕ) (x dy mean invVar : ℕ → ℚ) : (ℕ → ℚ) × (ℕ → ℚ) :=
  (List.range NC).foldl
    (fun acc nc =>
      (Function.update acc.1 (nc % C) (acc.1 (nc % C) + colSumDY HW dy nc),
       Function.update acc.2 (nc % C)
         (acc.2 (nc % C) + colSumScale HW x dy (mean (nc % C)) (invVar (nc % C)) nc)))
    (fun _ => 0, fun _ => 0)

/-- `scaleInvVarNHW = scale_arr * inv_var_arr / (N * H * W)`, coefficient `c`. -/
def scaleInvVarNHW (scale invVar : ℕ → ℚ) (NHW : ℕ) (c : ℕ) : ℚ :=
  scale c * invVar c / (NHW : ℚ)

/-- One element of the NCHW propagation loop body
`dX_arr.col(nc) += scaleInvVarNHW(c) * (dY_arr.col(nc) * N * H * W -
dBias_arr(c) - (X_arr.col(nc) - mean_arr[c]) * dScale_arr(c) *
inv_var_arr(c))`, at row `i` of block `nc` (`dX` was `setZero`-ed, so `+=`
assigns exactly this value). -/
def nchwDXElem (C HW NHW : ℕ) (x dy scale mean invVar dBias dScale : ℕ → ℚ)
    (nc i : ℕ) : ℚ :=
  scaleInvVarNHW scale invVar NHW (nc % C) *
    (dy (nc * HW + i) * (NHW : ℚ) - dBias (nc % C) -
      (x (nc * HW + i) - mean (nc % C)) * dScale (nc % C) * invVar (nc % C))

/-- The full `dX` buffer written by the NCHW propagation loop: flat element
`j` is row `j % HW` of block `j / HW` of the `(H*W, N*C)` column-major map. -/
def nchwDXData (C HW NC NHW : ℕ) (x dy scale mean invVar dBias dScale : ℕ → ℚ) :
    List ℚ :=
  (List.range (NC * HW)).map
    (fun j => nchwDXElem C HW NHW x dy scale mean invVar dBias dScale (j / HW) (j % HW))

/-! ## NHWC (channel-minor) kernel

The source maps the buffers as Eigen column-major arrays of shape
`(C, N*H*W)`, so entry `(c, nhw)` of a map is flat element `nhw*C + c`. -/

/-- `dY_arr.rowwise().sum()`, coefficient `c`. -/
def rowSumDY (C NHW : ℕ) (dy : ℕ → ℚ) (c : ℕ) : ℚ :=
  ∑ j ∈ Finset.range NHW, dy (j * C + c)

/-- `(dY_arr * (X_arr.colwise() - mean_arr)).rowwise().sum()`, coefficient `c`. -/
def rowSumDYXMinusMean (C NHW : ℕ) (x dy mean : ℕ → ℚ) (c : ℕ) : ℚ :=
  ∑ j ∈ Finset.range NHW, dy (j * C + c) * (x (j * C + c) - mean c)

/-- The NHWC reduction accumulation: starting from the zeroed accumulators,
for each position `nhw` accumulate, vectorized over the `C` channel slots,
`dBias_arr += dY_arr.col(nhw)` and
`dScale_arr += (X_arr.col(nhw) - mean_arr) * inv_var_arr * dY_arr.col(nhw)`
(only the `C` entries of the accumulator buffers are written). -/
def nhwcReduce (C NHW : ℕ) (x dy mean invVar : ℕ → ℚ) : (ℕ → ℚ) × (ℕ → ℚ) :=
  (List.range NHW).foldl
    (fun acc nhw =>
      (fun c => if c < C then acc.1 c + dy (nhw * C + c) else acc.1 c,
       fun c => if c < C then
          acc.2 c + (x (nhw * C + c) - mean c) * invVar c * dy (nhw * C + c)
        else acc.2 c))
    (fun _ => 0, fun _ => 0)

/-- One element of the NHWC propagation body
`dX_arr.col(nhw) += scaleInvVarNHW * (dY_arr.col(nhw) * N * H * W - dYRowSum -
XMinusMean.col(nhw) * invVarSqr * dYMulXMinusMeanRowSum)` at channel `c`;
the row sums are over the full (unchanging) `dY`/`X` buffers. -/
def nhwcDXElem (C NHW : ℕ) (x dy scale mean invVar : ℕ → ℚ) (nhw c : ℕ) : ℚ :=
  scaleInvVarNHW scale invVar NHW c *
    (dy (nhw * C + c) * (NHW : ℚ) - rowSumDY C NHW dy c -
      (x (nhw * C + c) - mean c) * (invVar c * invVar c) *
        rowSumDYXMinusMean C NHW x dy mean c)

/-- The full `dX` buffer written by the NHWC loop: flat element `j` is
channel `j % C` of position `j / C` of the `(C, N*H*W)` column-major map. -/
def nhwcDXData (C NHW : ℕ) (x dy scale mean invVar : ℕ → ℚ) : List ℚ :=
  (List.range (NHW * C)).map
    (fun j => nhwcDXElem C NHW x dy scale mean invVar (j / C) (j % C))

/-! ## The operator -/

/-- The buffer state right before the layout switch: `dX`, `dScale`, `dBias`
have been `ResizeLike`-d (`dX` like `X`, the per-channel outputs like
`scale`), and the `C` entries of `dBias`/`dScale` have been `setZero`-ed;
`dX`'s data has not been written. -/
def zeroOutputs (s : BNState) (C : ℕ) : BNState :=
  { s with
    dX := { dims := s.X.dims, data := s.dX.data },
    dScale := { dims := s.scale.dims, data := List.replicate C 0 },
    dBias := { dims := s.scale.dims, data := List.replicate C 0 } }

/-- Result state of the `StorageOrder::NCHW` case: the reduction loop runs
first (accumulating into the zeroed `dBias`/`dScale` buffers), then the
propagation loop fills every element of `dX`. -/
def nchwRun (s : BNState) (N C H W : ℕ) : BNState :=
  let x := tGet s.X
  let dy := tGet s.dY
  let sc := tGet s.scale
  let mean := tGet s.savedMean
  let invVar := tGet s.savedInvVar
  let r := nchwReduce C (H * W) (N * C) x dy mean invVar
  { s with
    dX := { dims := s.X.dims,
            data := nchwDXData C (H * W) (N * C) (N * H * W) x dy sc mean invVar r.1 r.2 },
    dScale := { dims := s.scale.dims, data := (List.range C).map r.2 },
    dBias := { dims := s.scale.dims, data := (List.range C).map r.1 } }

/-- Result state of the `StorageOrder::NHWC` case: the single loop both
accumulates the reductions (into the zeroed buffers) and writes every element
of `dX` from the precomputed full row sums. -/
def nhwcRun (s : BNState) (N C H W : ℕ) : BNState :=
  let x := tGet s.X
  let dy := tGet s.dY
  let sc := tGet s.scale
  let mean := tGet s.savedMean
  let invVar := tGet s.savedInvVar
  let r := nhwcReduce C (N * H * W) x dy mean invVar
  { s with
    dX := { dims := s.X.dims, data := nhwcDXData C (N * H * W) x dy sc mean invVar },
    dScale := { dims := s.scale.dims, data := (List.range C).map r.2 },
    dBias := { dims := s.scale.dims, data := (List.range C).map r.1 } }

/-- `SpatialBNGradientOp<CPUContext>::RunOnDevice`, translated statement by
statement: the rank check on `X`; the `(N, C, H, W)` derivation from the
declared order (the `NCHW` comparison is false for `UNKNOWN`, which therefore
reads the NHWC dimension positions); the two shape checks on `scale`; the
output `ResizeLike`s and the `setZero` of `dBias`/`dScale`; then the switch
on the storage order, whose default case throws after those writes.
On failure the error carries the buffer state at the moment of the throw. -/
def runOnDevice (s : BNState) : Except (BNError × BNState) BNState :=
  if ndim s.X ≠ 4 then .error (.ShapeMismatch, s)
  else
    let N := dim32 s.X 0
    let C := if s.order = .NCHW then dim32 s.X 1 else dim32 s.X 3
    let H := if s.order = .NCHW then dim32 s.X 2 else dim32 s.X 1
    let W := if s.order = .NCHW then dim32 s.X 3 else dim32 s.X 2
    if ndim s.scale ≠ 1 then .error (.ShapeMismatch, s)
    else if dim32 s.scale 0 ≠ C then .error (.ShapeMismatch, s)
    else
      match s.order with
      | .NCHW => .ok (nchwRun s N C H W)
      | .NHWC => .ok (nhwcRun s N C H W)
      | .UNKNOWN => .error (.UnsupportedLayout, zeroOutputs s C)

/-- The buffer state after the invocation (on failure, the state carried by
the error: the buffers as they were at the moment of the throw). -/
def runOut (s : BNState) : BNState :=
  match runOnDevice s with
  | .ok t => t
  | .error e => e.2

/-- Whether the invocation completed without a failure condition. -/
def runSucceeds (s : BNState) : Bool :=
  match runOnDevice s with
  | .ok _ => true
  | .error _ => false

/-- The shape of a rank-4 activation tensor holding logical extents
`(N, C, H, W)` in the given layout. -/
def dimsFor : StorageOrder → ℕ → ℕ → ℕ → ℕ → List ℕ
  | .NCHW, N, C, H, W => [N, C, H, W]
  | .NHWC, N, C, H, W => [N, H, W, C]
  | .UNKNOWN, N, C, H, W => [N, C, H, W]

/-- Flat buffer index of logical element `(n, c, h, w)` in the given layout
(matching the Eigen map geometry used by each kernel). -/
def flatIdx : StorageOrder → ℕ → ℕ → ℕ → ℕ → ℕ → ℕ → ℕ → ℕ
  | .NCHW, C, H, W, n, c, h, w => ((n * C + c) * H + h) * W + w
  | .NHWC, C, H, W, n, c, h, w => ((n * H + h) * W + w) * C + c
  | .UNKNOWN, C, H, W, n, c, h, w => ((n * C + c) * H + h) * W + w

/-! ## Generic helper lemmas -/

/-- A `foldl` whose step updates the two components of a pair independently
projects to the `foldl` of the first component. -/
lemma foldl_prod_fst {α : Type} (l : List α) (F G : (ℕ → ℚ) → α → (ℕ → ℚ))
    (a b : ℕ → ℚ) :
    (l.foldl (fun p v => (F p.1 v, G p.2 v)) (a, b)).1 = l.foldl F a := by
  induction l generalizing a b with
  | nil => rfl
  | cons v t ih => exact ih (F a v) (G b v)

/-- A `foldl` whose step updates the two components of a pair independently
projects to the `foldl` of the second component. -/
lemma foldl_prod_snd {α : Type} (l : List α) (F G : (ℕ → ℚ) → α → (ℕ → ℚ))
    (a b : ℕ → ℚ) :
    (l.foldl (fun p v => (F p.1 v, G p.2 v)) (a, b)).2 = l.foldl G b := by
  induction l generalizing a b with
  | nil => rfl
  | cons v t ih => exact ih (F a v) (G b v)

/-- Value at `c` of a fold that adds `g nc` into slot `nc % C` for each list
element: the initial value plus the contributions of the elements hitting `c`. -/
lemma foldl_update_apply (l : List ℕ) (C : ℕ) (g : ℕ → ℚ) (a : ℕ → ℚ) (c : ℕ) :
    (l.foldl (fun f nc => Function.update f (nc % C) (f (nc % C) + g nc)) a) c
      = a c + ((l.filter (fun nc => nc % C = c)).map g).sum := by
  induction l generalizing a with
  | nil => simp
  | cons nc t ih =>
    rw [List.foldl_cons, ih]
    by_cases h : nc % C = c
    · rw [List.filter_cons_of_pos (by simpa using h), List.map_cons, List.sum_cons,
        h, Function.update_same, add_assoc]
    · rw [List.filter_cons_of_neg (by simpa using h),
        Function.update_noteq (fun hc => h hc.symm)]

/-- Value at `c < C` of a fold that adds `contrib j c'` into every slot
`c' < C` for each list element. -/
lemma foldl_guard_apply (l : List ℕ) (C : ℕ) (contrib : ℕ → ℕ → ℚ)
    (a : ℕ → ℚ) (c : ℕ) (hc : c < C) :
    (l.foldl (fun f j => fun d => if d < C then f d + contrib j d else f d) a) c
      = a c + (l.map (fun j => contrib j c)).sum := by
  induction l generalizing a with
  | nil => simp
  | cons j t ih =>
    rw [List.foldl_cons, ih, List.map_cons, List.sum_cons]
    simp only [hc, if_pos, add_assoc]

/-- Summing a function mapped over `List.range` is the `Finset.range` sum. -/
lemma list_range_map_sum (n : ℕ) (f : ℕ → ℚ) :
    ((List.range n).map f).sum = ∑ i ∈ Finset.range n, f i := by
  induction n with
  | zero => simp
  | succ m ih =>
    rw [List.range_succ, List.map_append, List.sum_append, Finset.sum_range_succ, ih]
    simp

/-- Summing a function mapped over a filtered `List.range` is the sum over the
corresponding filtered `Finset.range`. -/
lemma filter_range_map_sum (n : ℕ) (p : ℕ → Prop) [DecidablePred p] (g : ℕ → ℚ) :
    (((List.range n).filter (fun i => p i)).map g).sum
      = ∑ i ∈ (Finset.range n).filter p, g i := by
  induction n with
  | zero => simp
  | succ m ih =>
    rw [List.range_succ, List.filter_append, List.map_append, List.sum_append,
      Finset.range_succ, Finset.filter_insert]
    by_cases h : p m
    · rw [if_pos h, Finset.sum_insert (by simp), ih]
      simp [h, add_comm]
    · rw [if_neg h, ih]
      simp [h]

/-- The indices below `N*C` congruent to `c` modulo `C` are exactly the
images `n*C + c` for `n < N`. -/
lemma filter_mod_eq_image (N C c : ℕ) (hc : c < C) :
    (Finset.range (N * C)).filter (fun nc => nc % C = c)
      = (Finset.range N).image (fun n => n * C + c) := by
  have hC : 0 < C := Nat.pos_of_ne_zero (by rintro rfl; exact Nat.not_lt_zero c hc)
  ext nc
  simp only [Finset.mem_filter, Finset.mem_range, Finset.mem_image]
  constructor
  · rintro ⟨hlt, hmod⟩
    refine ⟨nc / C, (Nat.div_lt_iff_lt_mul hC).mpr hlt, ?_⟩
    conv_rhs => rw [← Nat.div_add_mod nc C]
    rw [hmod, Nat.mul_comm]
  · rintro ⟨n, hn, rfl⟩
    refine ⟨?_, ?_⟩
    · calc n * C + c < n * C + C := by omega
        _ = (n + 1) * C := by ring
        _ ≤ N * C := Nat.mul_le_mul_right C hn
    · rw [Nat.mul_comm, Nat.mul_add_mod, Nat.mod_eq_of_lt hc]

/-- Reindex a sum over block indices congruent to `c` modulo `C` as a sum
over the block row `n`. -/
lemma sum_filter_mod (N C c : ℕ) (hc : c < C) (g : ℕ → ℚ) :
    ∑ nc ∈ (Finset.range (N * C)).filter (fun nc => nc % C = c), g nc
      = ∑ n ∈ Finset.range N, g (n * C + c) := by
  rw [filter_mod_eq_image N C c hc]
  refine Finset.sum_image ?_
  intro x _ y _ hxy
  have hC : 0 < C := Nat.pos_of_ne_zero (by rintro rfl; exact Nat.not_lt_zero c hc)
  exact Nat.eq_of_mul_eq_mul_right hC (by omega)

/-- Split a sum over `Finset.range (H * W)` into a double sum over the
quotient and remainder. -/
lemma sum_range_mul (H W : ℕ) (f : ℕ → ℚ) :
    ∑ i ∈ Finset.range (H * W), f i
      = ∑ h ∈ Finset.range H, ∑ w ∈ Finset.range W, f (h * W + w) := by
  induction H with
  | zero => simp
  | succ m ih =>
    have hsplit : ∑ i ∈ Finset.range (m * W + W), f i
        = ∑ i ∈ Finset.range (m * W), f i + ∑ i ∈ Finset.Ico (m * W) (m * W + W), f i := by
      simp only [Finset.range_eq_Ico]
      rw [Finset.sum_Ico_consecutive _ (Nat.zero_le (m * W)) (Nat.le_add_right (m * W) W)]
    rw [Nat.succ_mul, hsplit, Finset.sum_range_succ, ih]
    congr 1
    rw [Finset.sum_Ico_eq_sum_range]
    simp

/-- Split a sum over `Finset.range (N * H * W)` into a triple sum. -/
lemma sum_range_NHW (N H W : ℕ) (f : ℕ → ℚ) :
    ∑ j ∈ Finset.range (N * H * W), f j
      = ∑ n ∈ Finset.range N, ∑ h ∈ Finset.range H, ∑ w ∈ Finset.range W,
          f ((n * H + h) * W + w) := by
  rw [sum_range_mul (N * H) W f, sum_range_mul N H]

/-- Read a mapped range list inside its bounds. -/
lemma getD_range_map (n : ℕ) (f : ℕ → ℚ) (j : ℕ) (hj : j < n) :
    ((List.range n).map f).getD j 0 = f j := by
  rw [List.getD_eq_getElem ((List.range n).map f) 0 (by simpa using hj)]
  simp

/-- Interleaving a block of size `B` below a block index: the flat position. -/
lemma block_lt (nc NB B i : ℕ) (hnc : nc < NB) (hi : i < B) :
    nc * B + i < NB * B := by
  calc nc * B + i < nc * B + B := by omega
    _ = (nc + 1) * B := by ring
    _ ≤ NB * B := Nat.mul_le_mul_right B hnc

/-- Recover the block index from a flat position. -/
lemma block_div (nc B i : ℕ) (hi : i < B) : (nc * B + i) / B = nc := by
  rw [Nat.mul_comm, Nat.mul_add_div (by omega), Nat.div_eq_of_lt hi, Nat.add_zero]

/-- Recover the in-block offset from a flat position. -/
lemma block_mod (nc B i : ℕ) (hi : i < B) : (nc * B + i) % B = i := by
  rw [Nat.mul_comm, Nat.mul_add_mod, Nat.mod_eq_of_lt hi]

/-! ## Closed forms for the NCHW kernel -/

/-- The first accumulator of the NCHW reduction is a single-slot fold. -/
lemma nchwReduce_fst (C HW NC : ℕ) (x dy mean invVar : ℕ → ℚ) :
    (nchwReduce C HW NC x dy mean invVar).1
      = (List.range NC).foldl
          (fun f nc => Function.update f (nc % C) (f (nc % C) + colSumDY HW dy nc))
          (fun _ => 0) :=
  foldl_prod_fst (List.range NC)
    (fun f nc => Function.update f (nc % C) (f (nc % C) + colSumDY HW dy nc))
    (fun f nc => Function.update f (nc % C)
      (f (nc % C) + colSumScale HW x dy (mean (nc % C)) (invVar (nc % C)) nc))
    (fun _ => 0) (fun _ => 0)

/-- The second accumulator of the NCHW reduction is a single-slot fold. -/
lemma nchwReduce_snd (C HW NC : ℕ) (x dy mean invVar : ℕ → ℚ) :
    (nchwReduce C HW NC x dy mean invVar).2
      = (List.range NC).foldl
          (fun f nc => Function.update f (nc % C)
            (f (nc % C) + colSumScale HW x dy (mean (nc % C)) (invVar (nc % C)) nc))
          (fun _ => 0) :=
  foldl_prod_snd (List.range NC)
    (fun f nc => Function.update f (nc % C) (f (nc % C) + colSumDY HW dy nc))
    (fun f nc => Function.update f (nc % C)
      (f (nc % C) + colSumScale HW x dy (mean (nc % C)) (invVar (nc % C)) nc))
    (fun _ => 0) (fun _ => 0)

/-- `dBias` accumulator after the NCHW reduction: the sum of the per-block
column sums of the blocks belonging to channel `c`. -/
lemma nchwReduce_fst_apply (N C HW : ℕ) (x dy mean invVar : ℕ → ℚ) (c : ℕ)
    (hc : c < C) :
    (nchwReduce C HW (N * C) x dy mean invVar).1 c
      = ∑ n ∈ Finset.range N, colSumDY HW dy (n * C + c) := by
  rw [nchwReduce_fst, foldl_update_apply,
    filter_range_map_sum (N * C) (fun nc => nc % C = c) (colSumDY HW dy),
    sum_filter_mod N C c hc, zero_add]

/-- `dScale` accumulator after the NCHW reduction. -/
lemma nchwReduce_snd_apply (N C HW : ℕ) (x dy mean invVar : ℕ → ℚ) (c : ℕ)
    (hc : c < C) :
    (nchwReduce C HW (N * C) x dy mean invVar).2 c
      = ∑ n ∈ Finset.range N, colSumScale HW x dy (mean c) (invVar c) (n * C + c) := by
  rw [nchwReduce_snd, foldl_update_apply,
    filter_range_map_sum (N * C) (fun nc => nc % C = c)
      (fun nc => colSumScale HW x dy (mean (nc % C)) (invVar (nc % C)) nc),
    sum_filter_mod N C c hc, zero_add]
  refine Finset.sum_congr rfl fun n _ => ?_
  rw [block_mod n C c hc]

/-- Expand a block column sum over its `(h, w)` grid. -/
lemma colSumDY_expand (H W : ℕ) (dy : ℕ → ℚ) (nc : ℕ) :
    colSumDY (H * W) dy nc
      = ∑ h ∈ Finset.range H, ∑ w ∈ Finset.range W, dy ((nc * H + h) * W + w) := by
  rw [colSumDY, sum_range_mul]
  refine Finset.sum_congr rfl fun h _ => Finset.sum_congr rfl fun w _ => ?_
  congr 1
  ring

/-- Expand a block scale-gradient column sum over its `(h, w)` grid. -/
lemma colSumScale_expand (H W : ℕ) (x dy : ℕ → ℚ) (meanc invc : ℚ) (nc : ℕ) :
    colSumScale (H * W) x dy meanc invc nc
      = ∑ h ∈ Finset.range H, ∑ w ∈ Finset.range W,
          (x ((nc * H + h) * W + w) - meanc) * invc * dy ((nc * H + h) * W + w) := by
  rw [colSumScale, sum_range_mul]
  refine Finset.sum_congr rfl fun h _ => Finset.sum_congr rfl fun w _ => ?_
  have : nc * (H * W) + (h * W + w) = (nc * H + h) * W + w := by ring
  rw [this]

/-! ## Closed forms for the NHWC kernel -/

/-- The first accumulator of the NHWC reduction is a guarded fold. -/
lemma nhwcReduce_fst (C NHW : ℕ) (x dy mean invVar : ℕ → ℚ) :
    (nhwcReduce C NHW x dy mean invVar).1
      = (List.range NHW).foldl
          (fun f nhw => fun d => if d < C then f d + dy (nhw * C + d) else f d)
          (fun _ => 0) :=
  foldl_prod_fst (List.range NHW)
    (fun f nhw => fun d => if d < C then f d + dy (nhw * C + d) else f d)
    (fun f nhw => fun d => if d < C then
        f d + (x (nhw * C + d) - mean d) * invVar d * dy (nhw * C + d)
      else f d)
    (fun _ => 0) (fun _ => 0)

/-- The second accumulator of the NHWC reduction is a guarded fold. -/
lemma nhwcReduce_snd (C NHW : ℕ) (x dy mean invVar : ℕ → ℚ) :
    (nhwcReduce C NHW x dy mean invVar).2
      = (List.range NHW).foldl
          (fun f nhw => fun d => if d < C then
              f d + (x (nhw * C + d) - mean d) * invVar d * dy (nhw * C + d)
            else f d)
          (fun _ => 0) :=
  foldl_prod_snd (List.range NHW)
    (fun f nhw => fun d => if d < C then f d + dy (nhw * C + d) else f d)
    (fun f nhw => fun d => if d < C then
        f d + (x (nhw * C + d) - mean d) * invVar d * dy (nhw * C + d)
      else f d)
    (fun _ => 0) (fun _ => 0)

/-- `dBias` accumulator after the NHWC loop: the full row sum of `dY`. -/
lemma nhwcReduce_fst_apply (C NHW : ℕ) (x dy mean invVar : ℕ → ℚ) (c : ℕ)
    (hc : c < C) :
    (nhwcReduce C NHW x dy mean invVar).1 c = rowSumDY C NHW dy c := by
  rw [nhwcReduce_fst,
    foldl_guard_apply (List.range NHW) C (fun j d => dy (j * C + d)) (fun _ => 0) c hc,
    list_range_map_sum, rowSumDY, zero_add]

/-- `dScale` accumulator after the NHWC loop. -/
lemma nhwcReduce_snd_apply (C NHW : ℕ) (x dy mean invVar : ℕ → ℚ) (c : ℕ)
    (hc : c < C) :
    (nhwcReduce C NHW x dy mean invVar).2 c
      = ∑ j ∈ Finset.range NHW,
          (x (j * C + c) - mean c) * invVar c * dy (j * C + c) := by
  rw [nhwcReduce_snd,
    foldl_guard_apply (List.range NHW) C
      (fun j d => (x (j * C + d) - mean d) * invVar d * dy (j * C + d)) (fun _ => 0) c hc,
    list_range_map_sum, zero_add]

/-- The NHWC `dScale` accumulator equals `inv_var_arr(c)` times the row sum
`(dY * (X - mean)).rowwise().sum()` that the propagation body uses. -/
lemma nhwcReduce_snd_eq (C NHW : ℕ) (x dy mean invVar : ℕ → ℚ) (c : ℕ)
    (hc : c < C) :
    (nhwcReduce C NHW x dy mean invVar).2 c
      = invVar c * rowSumDYXMinusMean C NHW x dy mean c := by
  rw [nhwcReduce_snd_apply C NHW x dy mean invVar c hc, rowSumDYXMinusMean,
    Finset.mul_sum]
  exact Finset.sum_congr rfl fun j _ => by ring

/-! ## Run-level lemmas -/

/-- On a rank-4 NCHW input with a well-shaped `scale`, the operator succeeds
and produces the NCHW kernel's result. -/
lemma runOnDevice_nchw (s : BNState) (N C H W : ℕ) (ho : s.order = .NCHW)
    (hd : s.X.dims = [N, C, H, W]) (hs : s.scale.dims = [C]) :
    runOnDevice s = .ok (nchwRun s N C H W) := by
  rw [runOnDevice]
  simp [ho, hd, hs, ndim, dim32]

/-- On a rank-4 NHWC input with a well-shaped `scale`, the operator succeeds
and produces the NHWC kernel's result. -/
lemma runOnDevice_nhwc (s : BNState) (N C H W : ℕ) (ho : s.order = .NHWC)
    (hd : s.X.dims = [N, H, W, C]) (hs : s.scale.dims = [C]) :
    runOnDevice s = .ok (nhwcRun s N C H W) := by
  rw [runOnDevice]
  simp [ho, hd, hs, ndim, dim32]

/-- With an unrecognized storage order but shapes that pass the checks, the
operator throws `UnsupportedLayout` after the outputs were resized and the
per-channel outputs zeroed. -/
lemma runOnDevice_unknown (s : BNState) (ho : s.order = .UNKNOWN)
    (h4 : ndim s.X = 4) (hs : s.scale.dims = [dim32 s.X 3]) :
    runOnDevice s = .error (.UnsupportedLayout, zeroOutputs s (dim32 s.X 3)) := by
  have h4l : s.X.dims.length = 4 := h4
  rw [runOnDevice]
  simp [ho, h4l, hs, ndim, dim32]

/-- `runOut` on a valid NCHW invocation. -/
lemma runOut_nchw (s : BNState) (N C H W : ℕ) (ho : s.order = .NCHW)
    (hd : s.X.dims = [N, C, H, W]) (hs : s.scale.dims = [C]) :
    runOut s = nchwRun s N C H W := by
  rw [runOut, runOnDevice_nchw s N C H W ho hd hs]

/-- `runOut` on a valid NHWC invocation. -/
lemma runOut_nhwc (s : BNState) (N C H W : ℕ) (ho : s.order = .NHWC)
    (hd : s.X.dims = [N, H, W, C]) (hs : s.scale.dims = [C]) :
    runOut s = nhwcRun s N C H W := by
  rw [runOut, runOnDevice_nhwc s N C H W ho hd hs]

/-- `runSucceeds` on a valid NCHW invocation. -/
lemma runSucceeds_nchw (s : BNState) (N C H W : ℕ) (ho : s.order = .NCHW)
    (hd : s.X.dims = [N, C, H, W]) (hs : s.scale.dims = [C]) :
    runSucceeds s = true := by
  rw [runSucceeds, runOnDevice_nchw s N C H W ho hd hs]

/-- `runSucceeds` on a valid NHWC invocation. -/
lemma runSucceeds_nhwc (s : BNState) (N C H W : ℕ) (ho : s.order = .NHWC)
    (hd : s.X.dims = [N, H, W, C]) (hs : s.scale.dims = [C]) :
    runSucceeds s = true := by
  rw [runSucceeds, runOnDevice_nhwc s N C H W ho hd hs]

/-- Reading the `dBias` buffer produced by the NCHW kernel. -/
lemma nchwRun_dBias_apply (s : BNState) (N C H W c : ℕ) (hc : c < C) :
    tGet (nchwRun s N C H W).dBias c
      = (nchwReduce C (H * W) (N * C) (tGet s.X) (tGet s.dY)
          (tGet s.savedMean) (tGet s.savedInvVar)).1 c := by
  simp only [nchwRun, tGet]
  exact getD_range_map C _ c hc

/-- Reading the `dScale` buffer produced by the NCHW kernel. -/
lemma nchwRun_dScale_apply (s : BNState) (N C H W c : ℕ) (hc : c < C) :
    tGet (nchwRun s N C H W).dScale c
      = (nchwReduce C (H * W) (N * C) (tGet s.X) (tGet s.dY)
          (tGet s.savedMean) (tGet s.savedInvVar)).2 c := by
  simp only [nchwRun, tGet]
  exact getD_range_map C _ c hc

/-- Reading the `dBias` buffer produced by the NHWC kernel. -/
lemma nhwcRun_dBias_apply (s : BNState) (N C H W c : ℕ) (hc : c < C) :
    tGet (nhwcRun s N C H W).dBias c
      = (nhwcReduce C (N * H * W) (tGet s.X) (tGet s.dY)
          (tGet s.savedMean) (tGet s.savedInvVar)).1 c := by
  simp only [nhwcRun, tGet]
  exact getD_range_map C _ c hc

/-- Reading the `dScale` buffer produced by the NHWC kernel. -/
lemma nhwcRun_dScale_apply (s : BNState) (N C H W c : ℕ) (hc : c < C) :
    tGet (nhwcRun s N C H W).dScale c
      = (nhwcReduce C (N * H * W) (tGet s.X) (tGet s.dY)
          (tGet s.savedMean) (tGet s.savedInvVar)).2 c := by
  simp only [nhwcRun, tGet]
  exact getD_range_map C _ c hc

/-- Reading one element of the `dX` buffer produced by the NCHW kernel. -/
lemma nchwRun_dX_apply (s : BNState) (N C H W n c h w : ℕ)
    (hn : n < N) (hc : c < C) (hh : h < H) (hw : w < W) :
    tGet (nchwRun s N C H W).dX (((n * C + c) * H + h) * W + w)
      = nchwDXElem C (H * W) (N * H * W) (tGet s.X) (tGet s.dY) (tGet s.scale)
          (tGet s.savedMean) (tGet s.savedInvVar)
          (nchwReduce C (H * W) (N * C) (tGet s.X) (tGet s.dY)
            (tGet s.savedMean) (tGet s.savedInvVar)).1
          (nchwReduce C (H * W) (N * C) (tGet s.X) (tGet s.dY)
            (tGet s.savedMean) (tGet s.savedInvVar)).2
          (n * C + c) (h * W + w) := by
  have hi : h * W + w < H * W := block_lt h H W w hh hw
  have hnc : n * C + c < N * C := block_lt n N C c hn hc
  have hj : ((n * C + c) * H + h) * W + w = (n * C + c) * (H * W) + (h * W + w) := by
    ring
  simp only [nchwRun, tGet, nchwDXData, hj]
  rw [getD_range_map (N * C * (H * W)) _ _ (block_lt (n * C + c) (N * C) (H * W) _ hnc hi),
    block_div _ _ _ hi, block_mod _ _ _ hi]

/-- Reading one element of the `dX` buffer produced by the NHWC kernel. -/
lemma nhwcRun_dX_apply (s : BNState) (N C H W n c h w : ℕ)
    (hn : n < N) (hc : c < C) (hh : h < H) (hw : w < W) :
    tGet (nhwcRun s N C H W).dX (((n * H + h) * W + w) * C + c)
      = nhwcDXElem C (N * H * W) (tGet s.X) (tGet s.dY) (tGet s.scale)
          (tGet s.savedMean) (tGet s.savedInvVar) ((n * H + h) * W + w) c := by
  have hhw : (n * H + h) * W + w < N * H * W := by
    have h1 : n * H + h < N * H := block_lt n N H h hn hh
    have := block_lt (n * H + h) (N * H) W w h1 hw
    omega
  simp only [nhwcRun, tGet, nhwcDXData]
  rw [getD_range_map (N * H * W * C) _ _ (block_lt ((n * H + h) * W + w) (N * H * W) C c hhw hc),
    block_div _ _ _ hc, block_mod _ _ _ hc]

/-! ## Per-channel results over the logical `(n, c, h, w)` grid -/

/-- NCHW: the produced `dBias[c]` is the sum of `dY` over channel `c`. -/
lemma run_dBias_sum_nchw (s : BNState) (N C H W c : ℕ) (ho : s.order = .NCHW)
    (hd : s.X.dims = [N, C, H, W]) (hs : s.scale.dims = [C]) (hc : c < C) :
    tGet (runOut s).dBias c
      = ∑ n ∈ Finset.range N, ∑ h ∈ Finset.range H, ∑ w ∈ Finset.range W,
          tGet s.dY (((n * C + c) * H + h) * W + w) := by
  rw [runOut_nchw s N C H W ho hd hs, nchwRun_dBias_apply s N C H W c hc,
    nchwReduce_fst_apply N C (H * W) _ _ _ _ c hc]
  exact Finset.sum_congr rfl fun n _ => colSumDY_expand H W _ (n * C + c)

/-- NCHW: the produced `dScale[c]` is the centered-input weighted sum over
channel `c`. -/
lemma run_dScale_sum_nchw (s : BNState) (N C H W c : ℕ) (ho : s.order = .NCHW)
    (hd : s.X.dims = [N, C, H, W]) (hs : s.scale.dims = [C]) (hc : c < C) :
    tGet (runOut s).dScale c
      = ∑ n ∈ Finset.range N, ∑ h ∈ Finset.range H, ∑ w ∈ Finset.range W,
          (tGet s.X (((n * C + c) * H + h) * W + w) - tGet s.savedMean c)
            * tGet s.savedInvVar c * tGet s.dY (((n * C + c) * H + h) * W + w) := by
  rw [runOut_nchw s N C H W ho hd hs, nchwRun_dScale_apply s N C H W c hc,
    nchwReduce_snd_apply N C (H * W) _ _ _ _ c hc]
  exact Finset.sum_congr rfl fun n _ => colSumScale_expand H W _ _ _ _ (n * C + c)

/-- NHWC: the produced `dBias[c]` is the sum of `dY` over channel `c`. -/
lemma run_dBias_sum_nhwc (s : BNState) (N C H W c : ℕ) (ho : s.order = .NHWC)
    (hd : s.X.dims = [N, H, W, C]) (hs : s.scale.dims = [C]) (hc : c < C) :
    tGet (runOut s).dBias c
      = ∑ n ∈ Finset.range N, ∑ h ∈ Finset.range H, ∑ w ∈ Finset.range W,
          tGet s.dY (((n * H + h) * W + w) * C + c) := by
  rw [runOut_nhwc s N C H W ho hd hs, nhwcRun_dBias_apply s N C H W c hc,
    nhwcReduce_fst_apply C (N * H * W) _ _ _ _ c hc, rowSumDY,
    sum_range_NHW N H W (fun j => tGet s.dY (j * C + c))]

/-- NHWC: the produced `dScale[c]` is the centered-input weighted sum over
channel `c`. -/
lemma run_dScale_sum_nhwc (s : BNState) (N C H W c : ℕ) (ho : s.order = .NHWC)
    (hd : s.X.dims = [N, H, W, C]) (hs : s.scale.dims = [C]) (hc : c < C) :
    tGet (runOut s).dScale c
      = ∑ n ∈ Finset.range N, ∑ h ∈ Finset.range H, ∑ w ∈ Finset.range W,
          (tGet s.X (((n * H + h) * W + w) * C + c) - tGet s.savedMean c)
            * tGet s.savedInvVar c * tGet s.dY (((n * H + h) * W + w) * C + c) := by
  rw [runOut_nhwc s N C H W ho hd hs, nhwcRun_dScale_apply s N C H W c hc,
    nhwcReduce_snd_apply C (N * H * W) _ _ _ _ c hc,
    sum_range_NHW N H W (fun j =>
      (tGet s.X (j * C + c) - tGet s.savedMean c) * tGet s.savedInvVar c
        * tGet s.dY (j * C + c))]

/-- NCHW: every `dX` element carries the backward formula, with the produced
`dBias`/`dScale` as the reduced statistics. -/
lemma run_dX_formula_nchw (s : BNState) (N C H W n c h w : ℕ)
    (ho : s.order = .NCHW) (hd : s.X.dims = [N, C, H, W]) (hs : s.scale.dims = [C])
    (hn : n < N) (hc : c < C) (hh : h < H) (hw : w < W) :
    tGet (runOut s).dX (((n * C + c) * H + h) * W + w)
      = tGet s.scale c * tGet s.savedInvVar c / ((N * H * W : ℕ) : ℚ) *
          (tGet s.dY (((n * C + c) * H + h) * W + w) * ((N * H * W : ℕ) : ℚ)
            - tGet (runOut s).dBias c
            - (tGet s.X (((n * C + c) * H + h) * W + w) - tGet s.savedMean c)
                * tGet s.savedInvVar c * tGet (runOut s).dScale c) := by
  have hmod : (n * C + c) % C = c := block_mod n C c hc
  rw [runOut_nchw s N C H W ho hd hs, nchwRun_dX_apply s N C H W n c h w hn hc hh hw,
    nchwRun_dBias_apply s N C H W c hc, nchwRun_dScale_apply s N C H W c hc,
    nchwDXElem, scaleInvVarNHW, hmod]
  have hj : (n * C + c) * (H * W) + (h * W + w) = ((n * C + c) * H + h) * W + w := by
    ring
  rw [hj]
  ring

/-- NHWC: every `dX` element carries the backward formula, with the produced
`dBias`/`dScale` as the reduced statistics. -/
lemma run_dX_formula_nhwc (s : BNState) (N C H W n c h w : ℕ)
    (ho : s.order = .NHWC) (hd : s.X.dims = [N, H, W, C]) (hs : s.scale.dims = [C])
    (hn : n < N) (hc : c < C) (hh : h < H) (hw : w < W) :
    tGet (runOut s).dX (((n * H + h) * W + w) * C + c)
      = tGet s.scale c * tGet s.savedInvVar c / ((N * H * W : ℕ) : ℚ) *
          (tGet s.dY (((n * H + h) * W + w) * C + c) * ((N * H * W : ℕ) : ℚ)
            - tGet (runOut s).dBias c
            - (tGet s.X (((n * H + h) * W + w) * C + c) - tGet s.savedMean c)
                * tGet s.savedInvVar c * tGet (runOut s).dScale c) := by
  rw [runOut_nhwc s N C H W ho hd hs, nhwcRun_dX_apply s N C H W n c h w hn hc hh hw,
    nhwcRun_dBias_apply s N C H W c hc, nhwcRun_dScale_apply s N C H W c hc,
    nhwcReduce_fst_apply C (N * H * W) _ _ _ _ c hc,
    nhwcReduce_snd_eq C (N * H * W) _ _ _ _ c hc,
    nhwcDXElem, scaleInvVarNHW]
  ring

/-! ## Claims -/

/-- Claim C1: for every element `(n, c, h, w)` of a rank-4 input in either
supported layout, the computed input gradient equals
`inputGrad[n,c,h,w] = (scale[c]*invStd[c] / (N*H*W)) * (outputGrad[n,c,h,w]*N*H*W
- biasGrad[c] - (activation[n,c,h,w] - mean[c])*invStd[c]*scaleGrad[c])`, where
`biasGrad[c]` and `scaleGrad[c]` are the fully-reduced per-channel results of
the reduction pass (the produced output buffers); every element receives
exactly this value. -/
theorem claim1_input_gradient_formula (s : BNState) (N C H W n c h w : ℕ)
    (ho : s.order = .NCHW ∨ s.order = .NHWC)
    (hd : s.X.dims = dimsFor s.order N C H W) (hs : s.scale.dims = [C])
    (hn : n < N) (hc : c < C) (hh : h < H) (hw : w < W) :
    runSucceeds s = true ∧
    tGet (runOut s).dX (flatIdx s.order C H W n c h w)
      = tGet s.scale c * tGet s.savedInvVar c / ((N * H * W : ℕ) : ℚ) *
          (tGet s.dY (flatIdx s.order C H W n c h w) * ((N * H * W : ℕ) : ℚ)
            - tGet (runOut s).dBias c
            - (tGet s.X (flatIdx s.order C H W n c h w) - tGet s.savedMean c)
                * tGet s.savedInvVar c * tGet (runOut s).dScale c) := by
  rcases ho with hord | hord
  · rw [hord] at hd ⊢
    simp only [dimsFor] at hd
    simp only [flatIdx]
    exact ⟨runSucceeds_nchw s N C H W hord hd hs,
      run_dX_formula_nchw s N C H W n c h w hord hd hs hn hc hh hw⟩
  · rw [hord] at hd ⊢
    simp only [dimsFor] at hd
    simp only [flatIdx]
    exact ⟨runSucceeds_nhwc s N C H W hord hd hs,
      run_dX_formula_nhwc s N C H W n c h w hord hd hs hn hc hh hw⟩

/-- Concrete instance used to witness C1. -/
def wit1State : BNState :=
  { X := ⟨[1, 1, 1, 1], [5]⟩, dY := ⟨[1, 1, 1, 1], [3]⟩, scale := ⟨[1], [2]⟩,
    savedMean := ⟨[1], [1]⟩, savedInvVar := ⟨[1], [4]⟩, order := .NCHW,
    dX := ⟨[], []⟩, dScale := ⟨[], []⟩, dBias := ⟨[], []⟩ }

/-- Witness for C1: the formula theorem applied to a concrete 1×1×1×1 NCHW
invocation. -/
theorem claim1_witness :
    (wit1State.order = .NCHW ∨ wit1State.order = .NHWC) ∧
    wit1State.X.dims = dimsFor wit1State.order 1 1 1 1 ∧
    wit1State.scale.dims = [1] ∧ 0 < 1 ∧
    (runSucceeds wit1State = true ∧
      tGet (runOut wit1State).dX (flatIdx wit1State.order 1 1 1 0 0 0 0)
        = tGet wit1State.scale 0 * tGet wit1State.savedInvVar 0 / ((1 * 1 * 1 : ℕ) : ℚ) *
            (tGet wit1State.dY (flatIdx wit1State.order 1 1 1 0 0 0 0) * ((1 * 1 * 1 : ℕ) : ℚ)
              - tGet (runOut wit1State).dBias 0
              - (tGet wit1State.X (flatIdx wit1State.order 1 1 1 0 0 0 0)
                  - tGet wit1State.savedMean 0)
                  * tGet wit1State.savedInvVar 0 * tGet (runOut wit1State).dScale 0)) :=
  ⟨Or.inl rfl, rfl, rfl, Nat.one_pos,
    claim1_input_gradient_formula wit1State 1 1 1 1 0 0 0 0 (Or.inl rfl) rfl rfl
      Nat.one_pos Nat.one_pos Nat.one_pos Nat.one_pos⟩

/-- Claim C2: for every channel `c`, after the reduction pass `biasGrad[c]`
equals the sum over all `(n, h, w)` of `outputGrad[n,c,h,w]`, and
`scaleGrad[c]` equals the sum over all `(n, h, w)` of
`(activation[n,c,h,w] - mean[c]) * invStd[c] * outputGrad[n,c,h,w]`. The
accumulators start from zero: the equalities hold for arbitrary prior
contents of the output buffers in `s`. -/
theorem claim2_reduction_sums (s : BNState) (N C H W c : ℕ)
    (ho : s.order = .NCHW ∨ s.order = .NHWC)
    (hd : s.X.dims = dimsFor s.order N C H W) (hs : s.scale.dims = [C])
    (hc : c < C) :
    runSucceeds s = true ∧
    tGet (runOut s).dBias c
      = ∑ n ∈ Finset.range N, ∑ h ∈ Finset.range H, ∑ w ∈ Finset.range W,
          tGet s.dY (flatIdx s.order C H W n c h w) ∧
    tGet (runOut s).dScale c
      = ∑ n ∈ Finset.range N, ∑ h ∈ Finset.range H, ∑ w ∈ Finset.range W,
          (tGet s.X (flatIdx s.order C H W n c h w) - tGet s.savedMean c)
            * tGet s.savedInvVar c * tGet s.dY (flatIdx s.order C H W n c h w) := by
  rcases ho with hord | hord
  · rw [hord] at hd ⊢
    simp only [dimsFor] at hd
    simp only [flatIdx]
    exact ⟨runSucceeds_nchw s N C H W hord hd hs,
      run_dBias_sum_nchw s N C H W c hord hd hs hc,
      run_dScale_sum_nchw s N C H W c hord hd hs hc⟩
  · rw [hord] at hd ⊢
    simp only [dimsFor] at hd
    simp only [flatIdx]
    exact ⟨runSucceeds_nhwc s N C H W hord hd hs,
      run_dBias_sum_nhwc s N C H W c hord hd hs hc,
      run_dScale_sum_nhwc s N C H W c hord hd hs hc⟩

/-- Concrete instance used to witness C2 (2 batches, 1 channel, NHWC). -/
def wit2State : BNState :=
  { X := ⟨[2, 1, 1, 1], [1, 3]⟩, dY := ⟨[2, 1, 1, 1], [2, 5]⟩, scale := ⟨[1], [2]⟩,
    savedMean := ⟨[1], [2]⟩, savedInvVar := ⟨[1], [1]⟩, order := .NHWC,
    dX := ⟨[], []⟩, dScale := ⟨[], []⟩, dBias := ⟨[], []⟩ }

/-- Witness for C2: the reduction-sum theorem applied to a concrete NHWC
invocation. -/
theorem claim2_witness :
    (wit2State.order = .NCHW ∨ wit2State.order = .NHWC) ∧
    wit2State.X.dims = dimsFor wit2State.order 2 1 1 1 ∧
    wit2State.scale.dims = [1] ∧ 0 < 1 ∧
    (runSucceeds wit2State = true ∧
      tGet (runOut wit2State).dBias 0
        = ∑ n ∈ Finset.range 2, ∑ h ∈ Finset.range 1, ∑ w ∈ Finset.range 1,
            tGet wit2State.dY (flatIdx wit2State.order 1 1 1 n 0 h w) ∧
      tGet (runOut wit2State).dScale 0
        = ∑ n ∈ Finset.range 2, ∑ h ∈ Finset.range 1, ∑ w ∈ Finset.range 1,
            (tGet wit2State.X (flatIdx wit2State.order 1 1 1 n 0 h w)
              - tGet wit2State.savedMean 0)
              * tGet wit2State.savedInvVar 0
              * tGet wit2State.dY (flatIdx wit2State.order 1 1 1 n 0 h w)) :=
  ⟨Or.inr rfl, rfl, rfl, Nat.one_pos,
    claim2_reduction_sums wit2State 2 1 1 1 0 (Or.inr rfl) rfl rfl Nat.one_pos⟩

/-- Concrete instance of the spec's numerical check: N=2, C=1, H=1, W=1,
activation `[1, 3]`, scale `[2]`, savedMean `[2]`, savedInvStd `[1]`,
outputGrad `[1, 1]` (channel-major layout; with C=1 both layouts have the
same flat data). -/
def c3State : BNState :=
  { X := ⟨[2, 1, 1, 1], [1, 3]⟩, dY := ⟨[2, 1, 1, 1], [1, 1]⟩, scale := ⟨[1], [2]⟩,
    savedMean := ⟨[1], [2]⟩, savedInvVar := ⟨[1], [1]⟩, order := .NCHW,
    dX := ⟨[], [9, 9]⟩, dScale := ⟨[], [7]⟩, dBias := ⟨[], [7]⟩ }

/-- Claim C3: on the spec's concrete input the computation produces
`biasGrad = [2]`, `scaleGrad = [0]`, and `inputGrad = [0, 0]`. -/
theorem claim3_numerical_check :
    runSucceeds c3State = true ∧
    (runOut c3State).dBias.data = [2] ∧
    (runOut c3State).dScale.data = [0] ∧
    (runOut c3State).dX.data = [0, 0] := by
  refine ⟨rfl, ?_⟩
  norm_num [runOut, runOnDevice, nchwRun, nchwReduce, nchwDXData, nchwDXElem,
    scaleInvVarNHW, colSumDY, colSumScale, tGet, dim32, ndim, c3State,
    List.range_succ, Finset.sum_range_succ, Function.update]

/-- Claim C6: when the same logical tensor is expressed once in channel-major
and once in channel-minor layout (all logical reads agree), the per-layout
runs produce the same `Σ_c biasGrad[c]` and the same `Σ_c scaleGrad[c]`. -/
theorem claim6_layout_invariance (s₁ s₂ : BNState) (N C H W : ℕ)
    (ho₁ : s₁.order = .NCHW) (ho₂ : s₂.order = .NHWC)
    (hd₁ : s₁.X.dims = [N, C, H, W]) (hd₂ : s₂.X.dims = [N, H, W, C])
    (hs₁ : s₁.scale.dims = [C]) (hs₂ : s₂.scale.dims = [C])
    (hm : ∀ c < C, tGet s₁.savedMean c = tGet s₂.savedMean c)
    (hv : ∀ c < C, tGet s₁.savedInvVar c = tGet s₂.savedInvVar c)
    (hX : ∀ n < N, ∀ c < C, ∀ h < H, ∀ w < W,
      tGet s₁.X (flatIdx .NCHW C H W n c h w) = tGet s₂.X (flatIdx .NHWC C H W n c h w))
    (hdY : ∀ n < N, ∀ c < C, ∀ h < H, ∀ w < W,
      tGet s₁.dY (flatIdx .NCHW C H W n c h w) = tGet s₂.dY (flatIdx .NHWC C H W n c h w)) :
    (∑ c ∈ Finset.range C, tGet (runOut s₁).dBias c
       = ∑ c ∈ Finset.range C, tGet (runOut s₂).dBias c) ∧
    (∑ c ∈ Finset.range C, tGet (runOut s₁).dScale c
       = ∑ c ∈ Finset.range C, tGet (runOut s₂).dScale c) := by
  simp only [flatIdx] at hX hdY
  constructor
  · refine Finset.sum_congr rfl fun c hcm => ?_
    have hc := Finset.mem_range.mp hcm
    rw [run_dBias_sum_nchw s₁ N C H W c ho₁ hd₁ hs₁ hc,
      run_dBias_sum_nhwc s₂ N C H W c ho₂ hd₂ hs₂ hc]
    refine Finset.sum_congr rfl fun n hn => Finset.sum_congr rfl fun h hh =>
      Finset.sum_congr rfl fun w hw => ?_
    exact hdY n (Finset.mem_range.mp hn) c hc h (Finset.mem_range.mp hh)
      w (Finset.mem_range.mp hw)
  · refine Finset.sum_congr rfl fun c hcm => ?_
    have hc := Finset.mem_range.mp hcm
    rw [run_dScale_sum_nchw s₁ N C H W c ho₁ hd₁ hs₁ hc,
      run_dScale_sum_nhwc s₂ N C H W c ho₂ hd₂ hs₂ hc]
    refine Finset.sum_congr rfl fun n hn => Finset.sum_congr rfl fun h hh =>
      Finset.sum_congr rfl fun w hw => ?_
    rw [hX n (Finset.mem_range.mp hn) c hc h (Finset.mem_range.mp hh)
        w (Finset.mem_range.mp hw),
      hdY n (Finset.mem_range.mp hn) c hc h (Finset.mem_range.mp hh)
        w (Finset.mem_range.mp hw),
      hm c hc, hv c hc]

/-- Channel-major expression of the logical tensor used to witness C6. -/
def wit6StateNCHW : BNState :=
  { X := ⟨[1, 2, 1, 1], [5, 11]⟩, dY := ⟨[1, 2, 1, 1], [3, 13]⟩, scale := ⟨[2], [2, 4]⟩,
    savedMean := ⟨[2], [1, 6]⟩, savedInvVar := ⟨[2], [4, 7]⟩, order := .NCHW,
    dX := ⟨[], []⟩, dScale := ⟨[], []⟩, dBias := ⟨[], []⟩ }

/-- Channel-minor expression of the same logical tensor used to witness C6. -/
def wit6StateNHWC : BNState :=
  { X := ⟨[1, 1, 1, 2], [5, 11]⟩, dY := ⟨[1, 1, 1, 2], [3, 13]⟩, scale := ⟨[2], [2, 4]⟩,
    savedMean := ⟨[2], [1, 6]⟩, savedInvVar := ⟨[2], [4, 7]⟩, order := .NHWC,
    dX := ⟨[], []⟩, dScale := ⟨[], []⟩, dBias := ⟨[], []⟩ }

/-- Witness for C6: the layout-invariance theorem applied to a concrete
1×2×1×1 tensor expressed in both layouts. -/
theorem claim6_witness :
    wit6StateNCHW.order = .NCHW ∧ wit6StateNHWC.order = .NHWC ∧
    wit6StateNCHW.X.dims = [1, 2, 1, 1] ∧ wit6StateNHWC.X.dims = [1, 1, 1, 2] ∧
    (∀ n < 1, ∀ c < 2, ∀ h < 1, ∀ w < 1,
      tGet wit6StateNCHW.dY (flatIdx .NCHW 2 1 1 n c h w)
        = tGet wit6StateNHWC.dY (flatIdx .NHWC 2 1 1 n c h w)) ∧
    ((∑ c ∈ Finset.range 2, tGet (runOut wit6StateNCHW).dBias c
       = ∑ c ∈ Finset.range 2, tGet (runOut wit6StateNHWC).dBias c) ∧
     (∑ c ∈ Finset.range 2, tGet (runOut wit6StateNCHW).dScale c
       = ∑ c ∈ Finset.range 2, tGet (runOut wit6StateNHWC).dScale c)) :=
  ⟨rfl, rfl, rfl, rfl, by decide,
    claim6_layout_invariance wit6StateNCHW wit6StateNHWC 1 2 1 1 rfl rfl rfl rfl rfl rfl
      (by decide) (by decide) (by decide) (by decide)⟩

/-- A single-slot accumulation fold with all-zero contributions leaves the
accumulator unchanged. -/
lemma foldl_update_const (l : List ℕ) (C : ℕ) (g : ℕ → ℚ) (a : ℕ → ℚ)
    (hg : ∀ nc ∈ l, g nc = 0) :
    l.foldl (fun f nc => Function.update f (nc % C) (f (nc % C) + g nc)) a = a := by
  induction l generalizing a with
  | nil => rfl
  | cons nc t ih =>
    rw [List.foldl_cons, hg nc (by simp), add_zero, Function.update_eq_self,
      ih a (fun m hm => hg m (by simp [hm]))]

/-- A guarded accumulation fold with all-zero contributions leaves the
accumulator unchanged. -/
lemma foldl_guard_const (l : List ℕ) (C : ℕ) (contrib : ℕ → ℕ → ℚ) (a : ℕ → ℚ)
    (hcon : ∀ j ∈ l, ∀ d, contrib j d = 0) :
    l.foldl (fun f j => fun d => if d < C then f d + contrib j d else f d) a = a := by
  induction l generalizing a with
  | nil => rfl
  | cons j t ih =>
    rw [List.foldl_cons]
    have hstep : (fun d => if d < C then a d + contrib j d else a d) = a := by
      funext d
      rw [hcon j (by simp) d, add_zero, ite_self]
    rw [hstep, ih a (fun m hm d => hcon m (by simp [hm]) d)]

/-- NCHW reduction under an all-zero `dY`: both accumulators stay zero. -/
lemma nchwReduce_zero (C HW NC : ℕ) (x dy mean invVar : ℕ → ℚ)
    (hzero : ∀ i, dy i = 0) :
    (nchwReduce C HW NC x dy mean invVar).1 = (fun _ => 0) ∧
    (nchwReduce C HW NC x dy mean invVar).2 = (fun _ => 0) := by
  constructor
  · rw [nchwReduce_fst]
    exact foldl_update_const _ C _ _ (fun nc _ => by simp [colSumDY, hzero])
  · rw [nchwReduce_snd]
    exact foldl_update_const _ C _ _ (fun nc _ => by simp [colSumScale, hzero])

/-- NHWC reduction under an all-zero `dY`: both accumulators stay zero. -/
lemma nhwcReduce_zero (C NHW : ℕ) (x dy mean invVar : ℕ → ℚ)
    (hzero : ∀ i, dy i = 0) :
    (nhwcReduce C NHW x dy mean invVar).1 = (fun _ => 0) ∧
    (nhwcReduce C NHW x dy mean invVar).2 = (fun _ => 0) := by
  constructor
  · rw [nhwcReduce_fst]
    exact foldl_guard_const _ C _ _ (fun j _ d => by simp [hzero])
  · rw [nhwcReduce_snd]
    exact foldl_guard_const _ C _ _ (fun j _ d => by simp [hzero])

/-- Claim C7: if `outputGrad` is zero at every element then `biasGrad`,
`scaleGrad` and `inputGrad` are all zero everywhere. -/
theorem claim7_zero_output_grad (s : BNState) (N C H W : ℕ)
    (ho : s.order = .NCHW ∨ s.order = .NHWC)
    (hd : s.X.dims = dimsFor s.order N C H W) (hs : s.scale.dims = [C])
    (hzero : ∀ i, tGet s.dY i = 0) :
    runSucceeds s = true ∧
    (∀ q ∈ (runOut s).dBias.data, q = 0) ∧
    (∀ q ∈ (runOut s).dScale.data, q = 0) ∧
    (∀ q ∈ (runOut s).dX.data, q = 0) := by
  rcases ho with hord | hord
  · rw [hord] at hd
    simp only [dimsFor] at hd
    obtain ⟨hz1, hz2⟩ := nchwReduce_zero C (H * W) (N * C) (tGet s.X) (tGet s.dY)
      (tGet s.savedMean) (tGet s.savedInvVar) hzero
    refine ⟨runSucceeds_nchw s N C H W hord hd hs, ?_, ?_, ?_⟩
    · rw [runOut_nchw s N C H W hord hd hs]
      intro q hq
      simp only [nchwRun, List.mem_map] at hq
      obtain ⟨c, _, rfl⟩ := hq
      rw [hz1]
    · rw [runOut_nchw s N C H W hord hd hs]
      intro q hq
      simp only [nchwRun, List.mem_map] at hq
      obtain ⟨c, _, rfl⟩ := hq
      rw [hz2]
    · rw [runOut_nchw s N C H W hord hd hs]
      intro q hq
      simp only [nchwRun, nchwDXData, List.mem_map] at hq
      obtain ⟨j, _, rfl⟩ := hq
      rw [nchwDXElem, hz1, hz2, hzero]
      ring
  · rw [hord] at hd
    simp only [dimsFor] at hd
    obtain ⟨hz1, hz2⟩ := nhwcReduce_zero C (N * H * W) (tGet s.X) (tGet s.dY)
      (tGet s.savedMean) (tGet s.savedInvVar) hzero
    refine ⟨runSucceeds_nhwc s N C H W hord hd hs, ?_, ?_, ?_⟩
    · rw [runOut_nhwc s N C H W hord hd hs]
      intro q hq
      simp only [nhwcRun, List.mem_map] at hq
      obtain ⟨c, _, rfl⟩ := hq
      rw [hz1]
    · rw [runOut_nhwc s N C H W hord hd hs]
      intro q hq
      simp only [nhwcRun, List.mem_map] at hq
      obtain ⟨c, _, rfl⟩ := hq
      rw [hz2]
    · rw [runOut_nhwc s N C H W hord hd hs]
      intro q hq
      simp only [nhwcRun, nhwcDXData, List.mem_map] at hq
      obtain ⟨j, _, rfl⟩ := hq
      rw [nhwcDXElem]
      simp [hzero, rowSumDY, rowSumDYXMinusMean]

/-- Concrete instance used to witness C7: `dY` has an empty buffer, so every
read of it is zero. -/
def wit7State : BNState :=
  { X := ⟨[1, 1, 1, 1], [5]⟩, dY := ⟨[1, 1, 1, 1], []⟩, scale := ⟨[1], [2]⟩,
    savedMean := ⟨[1], [1]⟩, savedInvVar := ⟨[1], [4]⟩, order := .NCHW,
    dX := ⟨[], []⟩, dScale := ⟨[], []⟩, dBias := ⟨[], []⟩ }

/-- Witness for C7: the zero-gradient theorem applied to a concrete NCHW
invocation with an all-zero `dY`. -/
theorem claim7_witness :
    (wit7State.order = .NCHW ∨ wit7State.order = .NHWC) ∧
    wit7State.X.dims = dimsFor wit7State.order 1 1 1 1 ∧
    wit7State.scale.dims = [1] ∧ (∀ i, tGet wit7State.dY i = 0) ∧
    (runSucceeds wit7State = true ∧
      (∀ q ∈ (runOut wit7State).dBias.data, q = 0) ∧
      (∀ q ∈ (runOut wit7State).dScale.data, q = 0) ∧
      (∀ q ∈ (runOut wit7State).dX.data, q = 0)) :=
  ⟨Or.inl rfl, rfl, rfl, fun _ => rfl,
    claim7_zero_output_grad wit7State 1 1 1 1 (Or.inl rfl) rfl rfl (fun _ => rfl)⟩

/-- Claim C8: if channel `c` of the activation is constant at `savedMean[c]`
across all `(n, h, w)`, then `scaleGrad[c]` is zero whatever `outputGrad`
holds. -/
theorem claim8_constant_channel (s : BNState) (N C H W c : ℕ)
    (ho : s.order = .NCHW ∨ s.order = .NHWC)
    (hd : s.X.dims = dimsFor s.order N C H W) (hs : s.scale.dims = [C])
    (hc : c < C)
    (hconst : ∀ n < N, ∀ h < H, ∀ w < W,
      tGet s.X (flatIdx s.order C H W n c h w) = tGet s.savedMean c) :
    tGet (runOut s).dScale c = 0 := by
  rcases ho with hord | hord
  · rw [hord] at hd hconst
    simp only [dimsFor] at hd
    simp only [flatIdx] at hconst
    rw [run_dScale_sum_nchw s N C H W c hord hd hs hc]
    refine Finset.sum_eq_zero fun n hn => Finset.sum_eq_zero fun h hh =>
      Finset.sum_eq_zero fun w hw => ?_
    rw [hconst n (Finset.mem_range.mp hn) h (Finset.mem_range.mp hh)
        w (Finset.mem_range.mp hw), sub_self, zero_mul, zero_mul]
  · rw [hord] at hd hconst
    simp only [dimsFor] at hd
    simp only [flatIdx] at hconst
    rw [run_dScale_sum_nhwc s N C H W c hord hd hs hc]
    refine Finset.sum_eq_zero fun n hn => Finset.sum_eq_zero fun h hh =>
      Finset.sum_eq_zero fun w hw => ?_
    rw [hconst n (Finset.mem_range.mp hn) h (Finset.mem_range.mp hh)
        w (Finset.mem_range.mp hw), sub_self, zero_mul, zero_mul]

/-- Concrete instance used to witness C8: a 2-batch channel constant at its
saved mean, with a nonzero `dY`. -/
def wit8State : BNState :=
  { X := ⟨[2, 1, 1, 1], [6, 6]⟩, dY := ⟨[2, 1, 1, 1], [3, 13]⟩, scale := ⟨[1], [2]⟩,
    savedMean := ⟨[1], [6]⟩, savedInvVar := ⟨[1], [4]⟩, order := .NCHW,
    dX := ⟨[], []⟩, dScale := ⟨[], []⟩, dBias := ⟨[], []⟩ }

/-- Witness for C8: the constant-channel theorem applied to a concrete NCHW
invocation. -/
theorem claim8_witness :
    (wit8State.order = .NCHW ∨ wit8State.order = .NHWC) ∧
    wit8State.X.dims = dimsFor wit8State.order 2 1 1 1 ∧
    wit8State.scale.dims = [1] ∧ 0 < 1 ∧
    (∀ n < 2, ∀ h < 1, ∀ w < 1,
      tGet wit8State.X (flatIdx wit8State.order 1 1 1 n 0 h w)
        = tGet wit8State.savedMean 0) ∧
    tGet (runOut wit8State).dScale 0 = 0 :=
  ⟨Or.inl rfl, rfl, rfl, Nat.one_pos, by decide,
    claim8_constant_channel wit8State 2 1 1 1 0 (Or.inl rfl) rfl rfl Nat.one_pos
      (by decide)⟩

/-- Claim C9: the computation reads but never writes the five inputs; only
the three output buffers change. This holds on every invocation, successful
or failed (on failure the buffer state is the one carried by the error). -/
theorem claim9_inputs_unchanged (s : BNState) :
    (runOut s).X = s.X ∧ (runOut s).dY = s.dY ∧ (runOut s).scale = s.scale ∧
    (runOut s).savedMean = s.savedMean ∧ (runOut s).savedInvVar = s.savedInvVar := by
  obtain ⟨X, dY, sc, sm, sv, o, dX0, dS0, dB0⟩ := s
  cases o <;>
    simp only [runOut, runOnDevice, nchwRun, nhwcRun, zeroOutputs, ndim, dim32] <;>
    split_ifs <;>
    simp

/-- Concrete state for the C4 counterexample: `savedMean` is a per-channel
vector of length 2 while C = 1; every other shape is valid. -/
def cex4State : BNState :=
  { X := ⟨[1, 1, 1, 1], [5]⟩, dY := ⟨[1, 1, 1, 1], [7]⟩, scale := ⟨[1], [2]⟩,
    savedMean := ⟨[2], [9, 9]⟩, savedInvVar := ⟨[1], [1]⟩, order := .NCHW,
    dX := ⟨[], []⟩, dScale := ⟨[], []⟩, dBias := ⟨[], []⟩ }

/-- Counterexample to C4 as stated: a per-channel vector (`savedMean`) has
length 2 ≠ C = 1, yet the computation succeeds instead of failing with
`ShapeMismatch` — only `scale`'s shape is validated. -/
theorem claim4_counterexample :
    cex4State.savedMean.data.length = 2 ∧ ndim cex4State.savedMean = 1 ∧
    dim32 cex4State.savedMean 0 = 2 ∧
    (if cex4State.order = .NCHW then dim32 cex4State.X 1 else dim32 cex4State.X 3) = 1 ∧
    runSucceeds cex4State = true :=
  ⟨rfl, rfl, rfl, rfl, rfl⟩

/-- Claim C4 (amended): if the activation's rank is not 4, or `scale`'s rank
is not 1, or `scale`'s length differs from C, the computation fails with
`ShapeMismatch` and the error carries the input state unchanged — in
particular no output buffer has been written, so a sentinel placed in the
outputs beforehand is untouched. (The lengths of `savedMean` and
`savedInvStd` are not validated.) -/
theorem claim4_amended_shape_mismatch (s : BNState)
    (h : ndim s.X ≠ 4 ∨ ndim s.scale ≠ 1 ∨
      dim32 s.scale 0 ≠ (if s.order = .NCHW then dim32 s.X 1 else dim32 s.X 3)) :
    runOnDevice s = .error (.ShapeMismatch, s) := by
  simp only [runOnDevice]
  rcases h with h | h | h
  · rw [if_pos h]
  · by_cases h4 : ndim s.X ≠ 4
    · rw [if_pos h4]
    · rw [if_neg h4, if_pos h]
  · by_cases h4 : ndim s.X ≠ 4
    · rw [if_pos h4]
    · by_cases h1 : ndim s.scale ≠ 1
      · rw [if_neg h4, if_pos h1]
      · rw [if_neg h4, if_neg h1, if_pos h]

/-- Concrete state used to witness the amended C4: `scale` has length 2 while
C = 1, and the outputs hold sentinel values. -/
def wit4State : BNState :=
  { X := ⟨[1, 1, 1, 1], [5]⟩, dY := ⟨[1, 1, 1, 1], [7]⟩, scale := ⟨[2], [2, 2]⟩,
    savedMean := ⟨[1], [0]⟩, savedInvVar := ⟨[1], [1]⟩, order := .NCHW,
    dX := ⟨[4], [4]⟩, dScale := ⟨[1], [4]⟩, dBias := ⟨[1], [4]⟩ }

/-- Witness for the amended C4: a mis-sized `scale` makes the run fail with
`ShapeMismatch` carrying the untouched input state. -/
theorem claim4_witness :
    (ndim wit4State.X ≠ 4 ∨ ndim wit4State.scale ≠ 1 ∨
      dim32 wit4State.scale 0
        ≠ (if wit4State.order = .NCHW then dim32 wit4State.X 1 else dim32 wit4State.X 3)) ∧
    runOnDevice wit4State = .error (.ShapeMismatch, wit4State) :=
  ⟨Or.inr (Or.inr (by decide)),
    claim4_amended_shape_mismatch wit4State (Or.inr (Or.inr (by decide)))⟩

/-- Concrete state for the C5 counterexample: unrecognized layout tag with a
sentinel 7 in the `dBias` output buffer. -/
def cex5State : BNState :=
  { X := ⟨[1, 1, 1, 1], [5]⟩, dY := ⟨[1, 1, 1, 1], [3]⟩, scale := ⟨[1], [2]⟩,
    savedMean := ⟨[1], [0]⟩, savedInvVar := ⟨[1], [1]⟩, order := .UNKNOWN,
    dX := ⟨[9], [9]⟩, dScale := ⟨[1], [7]⟩, dBias := ⟨[1], [7]⟩ }

/-- Counterexample to C5 as stated: the unrecognized layout does fail, but
not with "none of the outputs modified" — by the time of the throw the
sentinel 7 in `biasGrad` (and `scaleGrad`) has been zeroed. -/
theorem claim5_counterexample :
    runSucceeds cex5State = false ∧
    cex5State.dBias.data = [7] ∧
    (runOut cex5State).dBias.data = [0] ∧
    (runOut cex5State).dScale.data = [0] :=
  ⟨rfl, rfl, rfl, rfl⟩

/-- Claim C5 (amended): an unrecognized layout tag fails with
`UnsupportedLayout` rather than silently defaulting to a layout, and no
`inputGrad` data is written; however the failure occurs only after the three
outputs were resized and `biasGrad`/`scaleGrad` were zero-initialized, so
those two buffers are modified (zeroed) on this failure. -/
theorem claim5_amended_unsupported_layout (s : BNState) (ho : s.order = .UNKNOWN)
    (h4 : ndim s.X = 4) (hs : s.scale.dims = [dim32 s.X 3]) :
    runOnDevice s = .error (.UnsupportedLayout, zeroOutputs s (dim32 s.X 3)) ∧
    (zeroOutputs s (dim32 s.X 3)).dX.data = s.dX.data ∧
    (zeroOutputs s (dim32 s.X 3)).dBias.data = List.replicate (dim32 s.X 3) 0 ∧
    (zeroOutputs s (dim32 s.X 3)).dScale.data = List.replicate (dim32 s.X 3) 0 :=
  ⟨runOnDevice_unknown s ho h4 hs, rfl, rfl, rfl⟩

/-- Witness for the amended C5: the concrete unrecognized-layout state fails
with `UnsupportedLayout` carrying the resized-and-zeroed output buffers. -/
theorem claim5_witness :
    cex5State.order = .UNKNOWN ∧ ndim cex5State.X = 4 ∧
    cex5State.scale.dims = [dim32 cex5State.X 3] ∧
    (runOnDevice cex5State
        = .error (.UnsupportedLayout, zeroOutputs cex5State (dim32 cex5State.X 3)) ∧
      (zeroOutputs cex5State (dim32 cex5State.X 3)).dX.data = cex5State.dX.data ∧
      (zeroOutputs cex5State (dim32 cex5State.X 3)).dBias.data
        = List.replicate (dim32 cex5State.X 3) 0 ∧
      (zeroOutputs cex5State (dim32 cex5State.X 3)).dScale.data
        = List.replicate (dim32 cex5State.X 3) 0) :=
  ⟨rfl, rfl, rfl, claim5_amended_unsupported_layout cex5State rfl rfl rfl⟩

/-- The per-channel scaling factors evaluated by the NCHW propagation loop:
iteration `nc` of `for (nc = 0; nc < N*C; ++nc)` evaluates the scalar
`scaleInvVarNHW(c)` with `c = nc % C` while building the expression assigned
to `dX_arr.col(nc)`, regardless of whether that column has any elements. -/
def nchwScaleFactorEvals (C NC NHW : ℕ) (scale invVar : ℕ → ℚ) : List ℚ :=
  (List.range NC).map (fun nc => scaleInvVarNHW scale invVar NHW (nc % C))

/-- Concrete state for C10: channel-major, N=1, C=1, H=0, W=1 — an empty
spatial extent with a nonempty block grid. -/
def cex10State : BNState :=
  { X := ⟨[1, 1, 0, 1], []⟩, dY := ⟨[1, 1, 0, 1], []⟩, scale := ⟨[1], [2]⟩,
    savedMean := ⟨[1], [0]⟩, savedInvVar := ⟨[1], [3]⟩, order := .NCHW,
    dX := ⟨[], []⟩, dScale := ⟨[], []⟩, dBias := ⟨[], []⟩ }

/-- Counterexample to C10 as stated: with N=1, C=1, H=0, W=1 in channel-major
layout the run succeeds, yet the propagation loop still runs once per block
and evaluates the per-channel scaling factor whose divisor N*H*W is 0 — the
"never evaluated" clause fails. -/
theorem claim10_counterexample :
    runSucceeds cex10State = true ∧
    dim32 cex10State.X 0 * dim32 cex10State.X 2 * dim32 cex10State.X 3 = 0 ∧
    nchwScaleFactorEvals (dim32 cex10State.X 1)
        (dim32 cex10State.X 0 * dim32 cex10State.X 1)
        (dim32 cex10State.X 0 * dim32 cex10State.X 2 * dim32 cex10State.X 3)
        (tGet cex10State.scale) (tGet cex10State.savedInvVar) ≠ [] := by
  refine ⟨rfl, rfl, ?_⟩
  simp [nchwScaleFactorEvals, cex10State, dim32]

/-- Claim C10 (amended): on a rank-4 input in a recognized layout with an
empty batch or spatial extent (N·H·W = 0) and a well-shaped `scale`, the
computation succeeds, `biasGrad` and `scaleGrad` are zero vectors of length
C, and `inputGrad` is an empty tensor carrying the input's shape. (The
division by N·H·W = 0 in the scaling factor is nonetheless evaluated once per
block by the channel-major propagation loop whenever N·C > 0, harmlessly:
the factor scales an empty column.) -/
theorem claim10_amended_empty_extent (s : BNState) (N C H W : ℕ)
    (ho : s.order = .NCHW ∨ s.order = .NHWC)
    (hd : s.X.dims = dimsFor s.order N C H W) (hs : s.scale.dims = [C])
    (hzero : N * H * W = 0) :
    runSucceeds s = true ∧
    (runOut s).dBias.data = List.replicate C 0 ∧
    (runOut s).dScale.data = List.replicate C 0 ∧
    (runOut s).dX.dims = s.X.dims ∧
    (runOut s).dX.data = [] := by
  have h0 : N = 0 ∨ H * W = 0 := by
    rcases Nat.mul_eq_zero.mp hzero with h | h
    · rcases Nat.mul_eq_zero.mp h with h | h
      · exact Or.inl h
      · exact Or.inr (by rw [h, Nat.zero_mul])
    · exact Or.inr (by rw [h, Nat.mul_zero])
  have hNCHW0 : N * C * (H * W) = 0 := by
    rcases h0 with h | h
    · rw [h, Nat.zero_mul, Nat.zero_mul]
    · rw [h, Nat.mul_zero]
  rcases ho with hord | hord
  · rw [hord] at hd
    simp only [dimsFor] at hd
    have hbias : ∀ c < C,
        (nchwReduce C (H * W) (N * C) (tGet s.X) (tGet s.dY)
          (tGet s.savedMean) (tGet s.savedInvVar)).1 c = 0 := by
      intro c hc
      rw [nchwReduce_fst_apply N C (H * W) _ _ _ _ c hc]
      rcases h0 with h | h
      · rw [h]
        simp
      · refine Finset.sum_eq_zero fun n _ => ?_
        rw [h, colSumDY]
        simp
    have hscale : ∀ c < C,
        (nchwReduce C (H * W) (N * C) (tGet s.X) (tGet s.dY)
          (tGet s.savedMean) (tGet s.savedInvVar)).2 c = 0 := by
      intro c hc
      rw [nchwReduce_snd_apply N C (H * W) _ _ _ _ c hc]
      rcases h0 with h | h
      · rw [h]
        simp
      · refine Finset.sum_eq_zero fun n _ => ?_
        rw [h, colSumScale]
        simp
    rw [runOut_nchw s N C H W hord hd hs]
    refine ⟨runSucceeds_nchw s N C H W hord hd hs, ?_, ?_, rfl, ?_⟩
    · simp only [nchwRun]
      refine List.eq_replicate_iff.mpr ⟨by simp, ?_⟩
      intro b hb
      simp only [List.mem_map, List.mem_range] at hb
      obtain ⟨c, hc, rfl⟩ := hb
      exact hbias c hc
    · simp only [nchwRun]
      refine List.eq_replicate_iff.mpr ⟨by simp, ?_⟩
      intro b hb
      simp only [List.mem_map, List.mem_range] at hb
      obtain ⟨c, hc, rfl⟩ := hb
      exact hscale c hc
    · simp only [nchwRun, nchwDXData, hNCHW0]
      rfl
  · rw [hord] at hd
    simp only [dimsFor] at hd
    rw [runOut_nhwc s N C H W hord hd hs]
    refine ⟨runSucceeds_nhwc s N C H W hord hd hs, ?_, ?_, rfl, ?_⟩
    · simp only [nhwcRun, nhwcReduce, hzero]
      simp [List.map_const']
    · simp only [nhwcRun, nhwcReduce, hzero]
      simp [List.map_const']
    · simp only [nhwcRun, nhwcDXData, hzero]
      simp

/-- Witness for the amended C10: the empty-extent theorem applied to the
concrete N=1, C=1, H=0, W=1 channel-major state. -/
theorem claim10_witness :
    (cex10State.order = .NCHW ∨ cex10State.order = .NHWC) ∧
    cex10State.X.dims = dimsFor cex10State.order 1 1 0 1 ∧
    cex10State.scale.dims = [1] ∧ 1 * 0 * 1 = 0 ∧
    (runSucceeds cex10State = true ∧
      (runOut cex10State).dBias.data = List.replicate 1 0 ∧
      (runOut cex10State).dScale.data = List.replicate 1 0 ∧
      (runOut cex10State).dX.dims = cex10State.X.dims ∧
      (runOut cex10State).dX.data = []) :=
  ⟨Or.inl rfl, rfl, rfl, rfl,
    claim10_amended_empty_extent cex10State 1 1 0 1 (Or.inl rfl) rfl rfl rfl⟩

end SpatialBN
